import Mathlib

/-!
# Verification of the enumeration-based SMILES augmentation module

Shallow embedding of `src/2_domain_adaptation/data/enumeration.py`:

* `Iterator` (the cyclic epoch batch-index generator `Iterator._flow_index`)
  becomes an explicit state record `IterState` with a step function
  `flowStep`; the global NumPy random state is modelled by a `rng : Nat`
  field, `np.random.seed s` by the assignment `rng := s`, and
  `np.random.permutation n` by an abstract function
  `pf : Nat → Nat → List Nat` consuming the state (advanced by
  `nr : Nat → Nat`).
* `SmilesEnumerator` (the string codec) becomes a record with `charset`,
  `pad`, `leftpad`, `enum`; the Python dicts `_char_to_int` /
  `_int_to_char` become `charToInt` / `intToChar`; NumPy one-hot matrices
  become `List (List Nat)` with NumPy's negative-index semantics in
  `npIndex`; the RDKit re-serialization collaborator is an abstract
  function argument.
* The augmentation loops of `enumerate_smiles` and
  `enumerate_smiles_hard_neg` become `applyRandomPairs`, `pickHardNeg`
  and `hardNegatives`, with the random draws supplied as explicit streams.
-/

namespace EnumAug

/-- State of `Iterator` (`enumeration.py` lines 26-33): the constructor
fields plus the local `index_array` of the generator `_flow_index` and the
process-wide NumPy RNG state. -/
structure IterState where
  n : Nat
  batch_size : Nat
  shuffle : Bool
  seed : Option Nat
  batch_index : Nat
  total_batches_seen : Nat
  index_array : List Nat
  rng : Nat
  deriving Repr, DecidableEq

/-- A yielded window `(index_array[ci : ci+cbs], current_index,
current_batch_size)` (`enumeration.py` lines 59-63). -/
abbrev Window := List Nat × Nat × Nat

/-- One round of the `while 1` loop body of `Iterator._flow_index`
(`enumeration.py` lines 43-63).  `pf` models `np.random.permutation`,
`nr` models the advance of the global RNG state that the permutation
draw causes. -/
def flowStep (pf : Nat → Nat → List Nat) (nr : Nat → Nat) (st : IterState) :
    Window × IterState :=
  -- if seed is not None: np.random.seed(seed + self.total_batches_seen)
  let st1 : IterState :=
    match st.seed with
    | some s => { st with rng := s + st.total_batches_seen }
    | none => st
  -- if self.batch_index == 0: index_array = arange(n) / permutation(n)
  let st2 : IterState :=
    if st1.batch_index = 0 then
      if st1.shuffle then
        { st1 with index_array := pf st1.rng st1.n, rng := nr st1.rng }
      else
        { st1 with index_array := List.range st1.n }
    else st1
  -- current_index = (self.batch_index * batch_size) % n
  let ci := (st2.batch_index * st2.batch_size) % st2.n
  if st2.n > ci + st2.batch_size then
    (((st2.index_array.drop ci).take st2.batch_size, ci, st2.batch_size),
      { st2 with batch_index := st2.batch_index + 1,
                 total_batches_seen := st2.total_batches_seen + 1 })
  else
    (((st2.index_array.drop ci).take (st2.n - ci), ci, st2.n - ci),
      { st2 with batch_index := 0,
                 total_batches_seen := st2.total_batches_seen + 1 })

/-- Pull `k` consecutive windows from the generator, returning them in
order together with the final state. -/
def pullN (pf : Nat → Nat → List Nat) (nr : Nat → Nat) :
    IterState → Nat → List Window × IterState
  | st, 0 => ([], st)
  | st, k + 1 =>
    let (w, st1) := flowStep pf nr st
    let (ws, st2) := pullN pf nr st1 k
    (w :: ws, st2)

/-- The state right after `Iterator.__init__` succeeds
(`enumeration.py` lines 26-33): zeroed cursor and pull count; `r` is the
ambient NumPy RNG state at construction time. -/
def initState (n batch_size : Nat) (shuffle : Bool) (seed : Option Nat)
    (r : Nat) : IterState :=
  ⟨n, batch_size, shuffle, seed, 0, 0, [], r⟩

/-- `Iterator.__init__` (`enumeration.py` lines 26-35): raises when
`n < batch_size`. -/
def Iterator.init (n batch_size : Nat) (shuffle : Bool) (seed : Option Nat)
    (r : Nat) : Except String IterState :=
  if n < batch_size then
    Except.error "Input data length is shorter than batch_size\nAdjust batch_size"
  else
    Except.ok (initState n batch_size shuffle seed r)

/-- `Iterator.reset` (`enumeration.py` lines 37-38). -/
def resetS (st : IterState) : IterState :=
  { st with batch_index := 0 }

/-- `SmilesIterator.__init__` (`enumeration.py` lines 87-108): raises on a
labels/data length mismatch, then delegates to `Iterator.__init__` with
`n := len x`.  Labels are kept abstract in `α`. -/
def SmilesIterator.init {α : Type} (x : List String) (y : Option (List α))
    (batch_size : Nat) (shuffle : Bool) (seed : Option Nat) (r : Nat) :
    Except String IterState :=
  match y with
  | some ys =>
    if x.length ≠ ys.length then
      Except.error "X (images tensor) and y (labels) should have the same length."
    else
      Iterator.init x.length batch_size shuffle seed r
  | none => Iterator.init x.length batch_size shuffle seed r

/-- `ceil(n / batch_size)`: the number of windows in one epoch. -/
def numBatches (n bs : Nat) : Nat := (n + bs - 1) / bs

/-- The RNG field after one no-shuffle step: the reseed (if any) is the
only RNG mutation since `np.random.permutation` is not called. -/
def rngAfter (sd : Option Nat) (t r : Nat) : Nat :=
  match sd with
  | some s => s + t
  | none => r

/-- The window the no-shuffle iterator yields at cursor `k` of an epoch
with `m` total windows. -/
def winAt (n bs m k : Nat) : Window :=
  if k + 1 < m then (((List.range n).drop (k * bs)).take bs, k * bs, bs)
  else (((List.range n).drop (k * bs)).take (n - k * bs), k * bs, n - k * bs)

/-- The windows the no-shuffle iterator yields from cursor `j` to the end
of an epoch with `m` total windows, `q` pulls remaining. -/
def windowsFrom (n bs m : Nat) : Nat → Nat → List Window
  | _, 0 => []
  | j, q + 1 => winAt n bs m j :: windowsFrom n bs m (j + 1) q

/-- Configuration of `SmilesEnumerator` (`enumeration.py` lines 146-161).
The cached `_charlen`, `_char_to_int`, `_int_to_char` are recomputed
functions of `charset` here, exactly as the `charset` setter keeps them in
sync. -/
structure SmilesEnumerator where
  charset : List Char
  pad : Nat
  leftpad : Bool
  isomericSmiles : Bool
  enumerate : Bool
  canonical : Bool
  deriving Repr, DecidableEq

/-- The Python default constructor arguments (`enumeration.py` line 148). -/
def SmilesEnumerator.default : SmilesEnumerator :=
  { charset := "@C)(=cOn1S2/H[N]\\".toList, pad := 120, leftpad := true,
    isomericSmiles := true, enumerate := true, canonical := false }

/-- Builds the dict `{c: i for i, c in enumerate(charset)}`: on duplicate
characters the later index wins, as for a Python dict comprehension. -/
def charToIntAux : List Char → Char → Nat → Option Nat → Option Nat
  | [], _, _, acc => acc
  | d :: ds, c, i, acc => charToIntAux ds c (i + 1) (if d = c then some i else acc)

/-- `self._char_to_int[c]` as a partial lookup (`enumeration.py` line 171). -/
def charToInt (cs : List Char) (c : Char) : Option Nat := charToIntAux cs c 0 none

/-- `self._int_to_char[i]` (`enumeration.py` line 172): `dict(enumerate cs)`
is exactly positional lookup. -/
def intToChar (cs : List Char) (i : Nat) : Option Char := cs.get? i

/-- NumPy basic integer indexing into an axis of length `len`: negative
indices wrap once, anything outside `[-len, len)` raises `IndexError`
(modelled as `none`). -/
def npIndex (len : Nat) (i : Int) : Option Nat :=
  if 0 ≤ i then (if i < (len : Int) then some i.toNat else none)
  else if -(len : Int) ≤ i then some ((len : Int) + i).toNat else none

/-- A row of all zeros: one tensor position over a vocabulary of width `w`. -/
def zeroRow (w : Nat) : List Nat := List.replicate w 0

/-- The `np.zeros((pad, charlen))` slab for one input row. -/
def zeroMat (p w : Nat) : List (List Nat) := List.replicate p (zeroRow w)

/-- Set entry `k` of a row to 1, or fail if `k` is out of range. -/
def setOne (row : List Nat) (k : Nat) : Option (List Nat) :=
  if k < row.length then some (row.set k 1) else none

/-- `one_hot[i, pos, k] = 1` with NumPy index semantics on `pos`. -/
def writeCell (m : List (List Nat)) (pos : Int) (k : Nat) :
    Option (List (List Nat)) :=
  match npIndex m.length pos with
  | none => none
  | some ri =>
    match m.get? ri with
    | none => none
    | some row =>
      match setOne row k with
      | none => none
      | some row2 => some (m.set ri row2)

/-- The per-character loop of `SmilesEnumerator.transform`
(`enumeration.py` lines 210-215 and 220-225): character `j` is written at
tensor position `j + diff` (`diff = pad - len(ss)` when left-padding,
`diff = 0` when right-padding); a missing vocabulary character
(`KeyError`) or an out-of-range position (`IndexError`) increments the
error count by one and breaks out of the row. -/
def encodeGo (cs : List Char) (diff : Int) :
    List Char → Nat → List (List Nat) → List (List Nat) × Nat
  | [], _, m => (m, 0)
  | c :: rest, j, m =>
    match charToInt cs c with
    | none => (m, 1)
    | some k =>
      match writeCell m ((j : Int) + diff) k with
      | none => (m, 1)
      | some m2 => encodeGo cs diff rest (j + 1) m2

/-- Encoding of one (already possibly re-serialized) string into its
one-hot slab plus its error count. -/
def encodeRow (e : SmilesEnumerator) (s : List Char) : List (List Nat) × Nat :=
  if e.leftpad then
    encodeGo e.charset ((e.pad : Int) - s.length) s 0 (zeroMat e.pad e.charset.length)
  else
    encodeGo e.charset 0 s 0 (zeroMat e.pad e.charset.length)

/-- `SmilesEnumerator.transform` (`enumeration.py` lines 197-228) over a
list of strings; `randomizeFn` is the opaque RDKit collaborator
`randomize_smiles`, used only when `self.enumerate` holds.  Returns the
one-hot tensor (as a list of row slabs) and the total error count. -/
def transform (e : SmilesEnumerator) (randomizeFn : String → String) :
    List String → List (List (List Nat)) × Nat
  | [] => ([], 0)
  | s :: rest =>
    let ss := if e.enumerate then randomizeFn s else s
    let (m, er) := encodeRow e ss.toList
    let (ms, ers) := transform e randomizeFn rest
    (m :: ms, er + ers)

/-- `np.argmax` over a 1-D list: index of the first occurrence of the
maximum (0 on the empty list). -/
def argmaxAux : List Nat → Nat → Nat → Nat → Nat
  | [], bi, _, _ => bi
  | x :: xs, bi, bv, i => if bv < x then argmaxAux xs i x (i + 1) else argmaxAux xs bi bv (i + 1)

/-- First index attaining the maximum, as `np.argmax`. -/
def argmax : List Nat → Nat
  | [] => 0
  | x :: xs => argmaxAux xs 0 x 1

/-- Decoding of one slab (`SmilesEnumerator.reverse_transform`, one `v` of
the loop, `enumeration.py` lines 237-242): keep the positions whose row
sums to exactly 1, take each row's argmax and translate through
`_int_to_char`.  The `getD ' '` default is unreachable for rows produced
by the mask, whose argmax is always a valid index when widths match. -/
def decodeRow (cs : List Char) (m : List (List Nat)) : String :=
  String.mk ((m.filter (fun row => row.sum == 1)).map
    (fun row => (intToChar cs (argmax row)).getD ' '))

/-- `SmilesEnumerator.reverse_transform` (`enumeration.py` lines 230-243). -/
def reverse_transform (e : SmilesEnumerator) (ms : List (List (List Nat))) :
    List String :=
  ms.map (decodeRow e.charset)

/-- `max(len(smile) for smile in smiles)` (0 on the empty list, where
Python would raise). -/
def maxLen (l : List String) : Nat := (l.map String.length).foldr max 0

/-- `SmilesEnumerator.fit` (`enumeration.py` lines 174-186): the new
charset is the set of characters of the joined strings united with
`extra_chars` (modelled as `dedup`, fixing one enumeration order of the
Python set), and `pad` is the longest string length plus `extra_pad`. -/
def fit (e : SmilesEnumerator) (smiles : List String) (extra_chars : List Char)
    (extra_pad : Nat) : SmilesEnumerator :=
  { e with
    charset := ((smiles.map String.toList).flatten ++ extra_chars).dedup,
    pad := maxLen smiles + extra_pad }

/-- The row written for the character with dict index `k`. -/
def oneHotRow (w k : Nat) : List Nat := (List.replicate w 0).set k 1

/-- Python `round(x, 1)`: rounding to one decimal with ties to even, over
exact rationals. -/
def round1 (q : ℚ) : ℚ :=
  let t : ℚ := 10 * q
  let f : Int := ⌊t⌋
  if t - f < 1 / 2 then (f : ℚ) / 10
  else if 1 / 2 < t - f then ((f : ℚ) + 1) / 10
  else (if f % 2 = 0 then (f : ℚ) else (f : ℚ) + 1) / 10

/-- `np.repeat(l, k)`: each element repeated `k` times in place. -/
def npRepeat {α : Type} (l : List α) (k : Nat) : List α :=
  (l.map (List.replicate k)).flatten

/-- One row of the `random_pairs` loop of `enumerate_smiles`
(`enumeration.py` lines 263-267): keep the transformed string with flag 1
when `round(np.random.uniform(), 1) > rand_proba` (the `continue`),
otherwise replace it by the pool element drawn by `np.random.choice`
(index `d.2`) and set the flag to 0.  `d.1` is the uniform draw. -/
def enumPair (rand_proba : ℚ) (smiles : List String) (t : String)
    (d : ℚ × Nat) : String × Nat :=
  if rand_proba < round1 d.1 then (t, 1) else (smiles.getD d.2 "", 0)

/-- The whole `random_pairs` loop of `enumerate_smiles`, with the random
draws supplied as one `(uniform, choice-index)` pair per row: returns the
final `(transformed, is_enumerated)` columns zipped. -/
def applyRandomPairs (rand_proba : ℚ) (smiles transformed : List String)
    (draws : List (ℚ × Nat)) : List (String × Nat) :=
  (transformed.zip draws).map (fun td => enumPair rand_proba smiles td.1 td.2)

/-- The resample-until-distinct loop of `enumerate_smiles_hard_neg`
(`enumeration.py` lines 290-292): `draw` is the stream of
`np.random.choice(smiles)` results, `k` the position in the stream, and
the fuel bounds the number of iterations we observe (the Python loop is
unbounded). -/
def pickHardNeg (draw : Nat → String) (smile : String) : Nat → Nat → Option String
  | 0, _ => none
  | fuel + 1, k =>
    if draw k = smile then pickHardNeg draw smile fuel (k + 1) else some (draw k)

/-- The full hard-negative loop over the rows (`enumeration.py` lines
289-293): row `i` uses its own draw stream `draw i` and its own original
string; `none` when some row's loop does not finish within the fuel. -/
def hardNegatives (draw : Nat → Nat → String) (fuel : Nat) :
    Nat → List String → Option (List String)
  | _, [] => some []
  | i, s :: ss =>
    match pickHardNeg (draw i) s fuel 0 with
    | none => none
    | some h =>
      match hardNegatives draw fuel (i + 1) ss with
      | none => none
      | some rest => some (h :: rest)

lemma numBatches_eq_succ (n bs : Nat) (hbs : 0 < bs) (hn : 0 < n) :
    numBatches n bs = (n - 1) / bs + 1 := by
  unfold numBatches
  have h : n + bs - 1 = (n - 1) + bs := by omega
  rw [h, Nat.add_div_right _ hbs]

lemma one_le_numBatches (n bs : Nat) (hbs : 0 < bs) (hn : 0 < n) :
    1 ≤ numBatches n bs := by
  rw [numBatches_eq_succ n bs hbs hn]
  exact Nat.succ_le_succ (Nat.zero_le _)

/-- `n ≤ ceil(n/bs) * bs`. -/
lemma le_numBatches_mul (n bs : Nat) (hbs : 0 < bs) (hn : 0 < n) :
    n ≤ numBatches n bs * bs := by
  rw [numBatches_eq_succ n bs hbs hn]
  have h1 : bs * ((n - 1) / bs) + (n - 1) % bs = n - 1 := Nat.div_add_mod (n - 1) bs
  have h2 : (n - 1) % bs < bs := Nat.mod_lt _ hbs
  have h3 : ((n - 1) / bs + 1) * bs = bs * ((n - 1) / bs) + bs := by ring
  rw [h3]
  generalize bs * ((n - 1) / bs) = X at h1 ⊢
  omega

/-- `(ceil(n/bs) - 1) * bs < n`. -/
lemma numBatches_pred_mul_lt (n bs : Nat) (hbs : 0 < bs) (hn : 0 < n) :
    (numBatches n bs - 1) * bs < n := by
  rw [numBatches_eq_succ n bs hbs hn]
  simp only [Nat.add_sub_cancel]
  have h := Nat.div_mul_le_self (n - 1) bs
  generalize (n - 1) / bs * bs = X at h ⊢
  omega

/-- Size of the clipped final window of an epoch. -/
lemma last_window_size (n bs : Nat) (hbs : 0 < bs) (hle : bs ≤ n) :
    n - (numBatches n bs - 1) * bs = if n % bs = 0 then bs else n % bs := by
  have hn : 0 < n := lt_of_lt_of_le hbs hle
  rw [numBatches_eq_succ n bs hbs hn]
  simp only [Nat.add_sub_cancel]
  have h1 : bs * (n / bs) + n % bs = n := Nat.div_add_mod n bs
  have h2 : n % bs < bs := Nat.mod_lt _ hbs
  by_cases h0 : n % bs = 0
  · have hq : 1 ≤ n / bs := (Nat.one_le_div_iff hbs).2 hle
    have hd : (n - 1) / bs = n / bs - 1 := by
      have hlow : (n / bs - 1) ≤ (n - 1) / bs := by
        rw [Nat.le_div_iff_mul_le hbs]
        have hmul : (n / bs - 1) * bs = bs * (n / bs) - bs := by
          rw [Nat.sub_one_mul, Nat.mul_comm]
        generalize hX : bs * (n / bs) = X at hmul h1
        omega
      have hhigh : (n - 1) / bs < n / bs := by
        rw [Nat.div_lt_iff_lt_mul hbs]
        generalize hX : bs * (n / bs) = X at h1
        rw [Nat.mul_comm] at hX
        omega
      omega
    rw [hd, if_pos h0]
    have hmul : (n / bs - 1) * bs = bs * (n / bs) - bs := by
      rw [Nat.sub_one_mul, Nat.mul_comm]
    rw [hmul]
    have hXbs : bs ≤ bs * (n / bs) := by
      calc bs = bs * 1 := by ring
      _ ≤ bs * (n / bs) := Nat.mul_le_mul_left bs hq
    generalize hX : bs * (n / bs) = X at h1 hXbs
    omega
  · have hd : (n - 1) / bs = n / bs := by
      have hlow : n / bs ≤ (n - 1) / bs := by
        rw [Nat.le_div_iff_mul_le hbs]
        generalize hX : bs * (n / bs) = X at h1
        rw [Nat.mul_comm] at hX
        omega
      have hhigh : (n - 1) / bs < n / bs + 1 := by
        rw [Nat.div_lt_iff_lt_mul hbs]
        have : (n / bs + 1) * bs = bs * (n / bs) + bs := by ring
        rw [this]
        generalize hX : bs * (n / bs) = X at h1 ⊢
        omega
      omega
    rw [hd]
    simp only [if_neg h0]
    generalize hX : bs * (n / bs) = X at h1
    rw [Nat.mul_comm] at hX
    omega

/-- Evaluation of a no-shuffle step on a full window. -/
lemma flowStep_noShuffle_full (pf : Nat → Nat → List Nat) (nr : Nat → Nat)
    (n bs : Nat) (sd : Option Nat) (j t : Nat) (A : List Nat) (r : Nat)
    (hA : 1 ≤ j → A = List.range n) (h : n > j * bs % n + bs) :
    flowStep pf nr ⟨n, bs, false, sd, j, t, A, r⟩ =
      ((((List.range n).drop (j * bs % n)).take bs, j * bs % n, bs),
        ⟨n, bs, false, sd, j + 1, t + 1, List.range n, rngAfter sd t r⟩) := by
  cases sd <;> cases j <;>
    simp_all [flowStep, rngAfter, if_pos h]

/-- Evaluation of a no-shuffle step on the clipped final window. -/
lemma flowStep_noShuffle_last (pf : Nat → Nat → List Nat) (nr : Nat → Nat)
    (n bs : Nat) (sd : Option Nat) (j t : Nat) (A : List Nat) (r : Nat)
    (hA : 1 ≤ j → A = List.range n) (h : ¬ n > j * bs % n + bs) :
    flowStep pf nr ⟨n, bs, false, sd, j, t, A, r⟩ =
      ((((List.range n).drop (j * bs % n)).take (n - j * bs % n), j * bs % n,
          n - j * bs % n),
        ⟨n, bs, false, sd, 0, t + 1, List.range n, rngAfter sd t r⟩) := by
  cases sd <;> cases j <;>
    simp_all [flowStep, rngAfter, if_neg h]

/-- Unfolding one pull. -/
lemma pullN_succ (pf : Nat → Nat → List Nat) (nr : Nat → Nat) (st : IterState)
    (k : Nat) :
    pullN pf nr st (k + 1) =
      ((flowStep pf nr st).1 :: (pullN pf nr (flowStep pf nr st).2 k).1,
        (pullN pf nr (flowStep pf nr st).2 k).2) := by
  rcases hfs : flowStep pf nr st with ⟨w, st1⟩
  simp [pullN, hfs]

/-- Pulling the rest of an epoch (no shuffle) yields exactly the windows
`windowsFrom`, ending with a zeroed cursor and the pull count advanced. -/
lemma pullN_noShuffle (pf : Nat → Nat → List Nat) (nr : Nat → Nat)
    (n bs : Nat) (sd : Option Nat) (hbs : 0 < bs) (hle : bs ≤ n) :
    ∀ (q j : Nat) (A : List Nat) (t r : Nat), 1 ≤ q →
      j + q = numBatches n bs → (1 ≤ j → A = List.range n) →
      (pullN pf nr ⟨n, bs, false, sd, j, t, A, r⟩ q).1 =
          windowsFrom n bs (numBatches n bs) j q ∧
        (pullN pf nr ⟨n, bs, false, sd, j, t, A, r⟩ q).2.batch_index = 0 ∧
        (pullN pf nr ⟨n, bs, false, sd, j, t, A, r⟩ q).2.total_batches_seen = t + q := by
  have hn : 0 < n := lt_of_lt_of_le hbs hle
  intro q
  induction q with
  | zero => intro j A t r h; omega
  | succ q ih =>
    intro j A t r _ hjq hA
    have hjlt : j * bs < n := by
      have hj : j ≤ numBatches n bs - 1 := by omega
      calc j * bs ≤ (numBatches n bs - 1) * bs := Nat.mul_le_mul_right bs hj
      _ < n := numBatches_pred_mul_lt n bs hbs hn
    have hmod : j * bs % n = j * bs := Nat.mod_eq_of_lt hjlt
    cases q with
    | zero =>
      -- the clipped final window: j + 1 = numBatches n bs
      have hlastc : ¬ n > j * bs % n + bs := by
        rw [hmod]
        have : numBatches n bs * bs = j * bs + bs := by
          have : numBatches n bs = j + 1 := by omega
          rw [this]; ring
        have hF1 := le_numBatches_mul n bs hbs hn
        omega
      have hw : winAt n bs (numBatches n bs) j =
          (((List.range n).drop (j * bs)).take (n - j * bs), j * bs, n - j * bs) := by
        unfold winAt
        rw [if_neg (by omega)]
      rw [pullN_succ, flowStep_noShuffle_last pf nr n bs sd j t A r hA hlastc]
      simp only [Prod.fst, Prod.snd, pullN, windowsFrom, hmod, hw]
      refine ⟨?_, ?_, ?_⟩ <;> trivial
    | succ q' =>
      -- a full window, then induction
      have hfullc : n > j * bs % n + bs := by
        rw [hmod]
        have hj1 : j + 1 ≤ numBatches n bs - 1 := by omega
        have : j * bs + bs = (j + 1) * bs := by ring
        rw [this]
        calc (j + 1) * bs ≤ (numBatches n bs - 1) * bs := Nat.mul_le_mul_right bs hj1
        _ < n := numBatches_pred_mul_lt n bs hbs hn
      have hw : winAt n bs (numBatches n bs) j =
          (((List.range n).drop (j * bs)).take bs, j * bs, bs) := by
        unfold winAt
        rw [if_pos (by omega)]
      have hrec := ih (j + 1) (List.range n) (t + 1) (rngAfter sd t r)
        (by omega) (by omega) (fun _ => rfl)
      rw [pullN_succ, flowStep_noShuffle_full pf nr n bs sd j t A r hA hfullc]
      simp only [Prod.fst, Prod.snd, hmod]
      refine ⟨?_, ?_, ?_⟩
      · rw [hrec.1]
        simp [windowsFrom, hw, hmod]
      · exact hrec.2.1
      · rw [hrec.2.2]; omega

/-- The index lists of the windows from cursor `j` concatenate to the tail
of `range n` from position `j * bs`. -/
lemma windowsFrom_flatten (n bs : Nat) (hbs : 0 < bs) (hle : bs ≤ n) :
    ∀ (q j : Nat), j + q = numBatches n bs →
      ((windowsFrom n bs (numBatches n bs) j q).map (fun w => w.1)).flatten =
        (List.range n).drop (j * bs) := by
  have hn : 0 < n := lt_of_lt_of_le hbs hle
  intro q
  induction q with
  | zero =>
    intro j h
    have hge : n ≤ j * bs := by
      have : j = numBatches n bs := by omega
      rw [this]
      exact le_numBatches_mul n bs hbs hn
    rw [windowsFrom]
    simp only [List.map_nil, List.flatten_nil]
    rw [eq_comm, List.drop_eq_nil_iff]
    simp [Nat.le_trans hge (le_refl _), hge]
  | succ q ih =>
    intro j h
    by_cases hfull : j + 1 < numBatches n bs
    · have hq : q = numBatches n bs - (j + 1) := by omega
      have hrec := ih (j + 1) (by omega)
      rw [windowsFrom]
      simp only [List.map_cons, List.flatten_cons, hrec]
      unfold winAt
      rw [if_pos hfull]
      have hdd : (List.range n).drop ((j + 1) * bs) =
          (((List.range n).drop (j * bs)).drop bs) := by
        rw [List.drop_drop]
        congr 1
        ring
      rw [hdd, List.take_append_drop]
    · have hj1 : j + 1 = numBatches n bs := by omega
      have hq0 : q = 0 := by omega
      subst hq0
      rw [windowsFrom, windowsFrom]
      simp only [List.map_cons, List.map_nil, List.flatten_cons, List.flatten_nil,
        List.append_nil]
      unfold winAt
      rw [if_neg (by omega)]
      have hlen : ((List.range n).drop (j * bs)).length = n - j * bs := by
        rw [List.length_drop, List.length_range]
      rw [List.take_of_length_le (le_of_eq hlen)]

/-- Indexing into `windowsFrom`. -/
lemma windowsFrom_get (n bs m : Nat) :
    ∀ (q j i : Nat), i < q →
      (windowsFrom n bs m j q).get? i = some (winAt n bs m (j + i)) := by
  intro q
  induction q with
  | zero => intro j i h; omega
  | succ q ih =>
    intro j i h
    cases i with
    | zero => rw [windowsFrom]; rfl
    | succ i =>
      rw [windowsFrom]
      simp only [List.get?_cons_succ]
      rw [ih (j + 1) i (by omega)]
      congr 2
      omega

/-- C1: with shuffling disabled, pulling `ceil(n/bs)` windows from a fresh
iterator partitions `{0,…,n-1}` exactly once in order: the concatenated
index lists equal `range n`; window `i` (for `i + 1 < ceil(n/bs)`) is the
slice `[i*bs : i*bs+bs]` of size `bs`; the final window starts at
`(ceil(n/bs)-1)*bs` and has size `n % bs` (or `bs` when that remainder is
0); and the cursor has wrapped to 0 afterwards. -/
theorem C1_epoch_partition (pf : Nat → Nat → List Nat) (nr : Nat → Nat)
    (n bs : Nat) (sd : Option Nat) (r : Nat) (hbs : 0 < bs) (hle : bs ≤ n) :
    (((pullN pf nr (initState n bs false sd r) (numBatches n bs)).1.map
        (fun w => w.1)).flatten = List.range n) ∧
    (∀ i, i + 1 < numBatches n bs →
      (pullN pf nr (initState n bs false sd r) (numBatches n bs)).1.get? i =
        some (((List.range n).drop (i * bs)).take bs, i * bs, bs) ∧
      (((List.range n).drop (i * bs)).take bs).length = bs) ∧
    ((pullN pf nr (initState n bs false sd r) (numBatches n bs)).1.get?
        (numBatches n bs - 1) =
      some ((List.range n).drop ((numBatches n bs - 1) * bs),
        (numBatches n bs - 1) * bs,
        if n % bs = 0 then bs else n % bs) ∧
      ((List.range n).drop ((numBatches n bs - 1) * bs)).length =
        (if n % bs = 0 then bs else n % bs)) ∧
    (pullN pf nr (initState n bs false sd r) (numBatches n bs)).2.batch_index = 0 := by
  have hn : 0 < n := lt_of_lt_of_le hbs hle
  have hm1 : 1 ≤ numBatches n bs := one_le_numBatches n bs hbs hn
  have hmain := pullN_noShuffle pf nr n bs sd hbs hle (numBatches n bs) 0 [] 0 r
    hm1 (by omega) (by omega)
  have hstate : initState n bs false sd r = ⟨n, bs, false, sd, 0, 0, [], r⟩ := rfl
  rw [hstate]
  have hlastsz := last_window_size n bs hbs hle
  have hlastlt : (numBatches n bs - 1) * bs < n := numBatches_pred_mul_lt n bs hbs hn
  have hlastlen : ((List.range n).drop ((numBatches n bs - 1) * bs)).length =
      n - (numBatches n bs - 1) * bs := by
    rw [List.length_drop, List.length_range]
  refine ⟨?_, ?_, ⟨?_, ?_⟩, hmain.2.1⟩
  · rw [hmain.1]
    have := windowsFrom_flatten n bs hbs hle (numBatches n bs) 0 (by omega)
    simpa using this
  · intro i hi
    constructor
    · rw [hmain.1, windowsFrom_get n bs (numBatches n bs) (numBatches n bs) 0 i (by omega)]
      unfold winAt
      rw [if_pos (by omega)]
      simp
    · rw [List.length_take, List.length_drop, List.length_range]
      have : i + 1 ≤ numBatches n bs - 1 := by omega
      have hib : (i + 1) * bs ≤ (numBatches n bs - 1) * bs :=
        Nat.mul_le_mul_right bs this
      have : (i + 1) * bs = i * bs + bs := by ring
      omega
  · rw [hmain.1, windowsFrom_get n bs (numBatches n bs) (numBatches n bs) 0
      (numBatches n bs - 1) (by omega)]
    unfold winAt
    rw [if_neg (by omega)]
    simp only [Nat.zero_add]
    rw [List.take_of_length_le (le_of_eq hlastlen), hlastsz]
  · rw [hlastlen, hlastsz]

/-- Witness for C1 at the claim's own scenario `n = 10`, `bs = 3`:
windows `[0:3], [3:6], [6:9], [9:10]` and the cursor wraps to 0. -/
theorem C1_epoch_partition_witness :
    (((pullN (fun _ k => List.range k) id (initState 10 3 false none 0)
        (numBatches 10 3)).1.map (fun w => w.1)).flatten = List.range 10) ∧
    ((pullN (fun _ k => List.range k) id (initState 10 3 false none 0) 4).1 =
      [([0, 1, 2], 0, 3), ([3, 4, 5], 3, 3), ([6, 7, 8], 6, 3), ([9], 9, 1)]) ∧
    (pullN (fun _ k => List.range k) id (initState 10 3 false none 0) 4).2.batch_index
      = 0 :=
  ⟨(C1_epoch_partition (fun _ k => List.range k) id 10 3 none 0 (by decide)
      (by decide)).1, by decide, by decide⟩

/-- When a seed is supplied, the reseed `np.random.seed(seed +
total_batches_seen)` at the top of the loop body overwrites the ambient
RNG state, so the step does not depend on the `rng` field. -/
lemma flowStep_seeded_rng_irrel (pf : Nat → Nat → List Nat) (nr : Nat → Nat)
    (n bs : Nat) (sh : Bool) (s bi t : Nat) (A : List Nat) (r1 r2 : Nat) :
    flowStep pf nr ⟨n, bs, sh, some s, bi, t, A, r1⟩ =
      flowStep pf nr ⟨n, bs, sh, some s, bi, t, A, r2⟩ := rfl

/-- C3: for a fixed seed, two independently constructed iterators with
identical `(n, batch_size, shuffle := true, seed)` — possibly living in
processes whose global RNG states `r1`, `r2` differ — yield identical
window sequences when pulled the same number `k` of times from fresh
construction, including mid-epoch `k`, because `seed +
total_batches_seen` reseeds the RNG before each pull. -/
theorem C3_seed_determinism (pf : Nat → Nat → List Nat) (nr : Nat → Nat)
    (n bs s k r1 r2 : Nat) :
    (pullN pf nr (initState n bs true (some s) r1) k).1 =
      (pullN pf nr (initState n bs true (some s) r2) k).1 := by
  cases k with
  | zero => rfl
  | succ k =>
    have h := flowStep_seeded_rng_irrel pf nr n bs true s 0 0 [] r1 r2
    simp only [pullN, initState]
    rw [h]

/-- C8: construction errors fail fast: `Iterator.__init__` with
`n < batch_size` raises, and `SmilesIterator.__init__` with labels of a
different length than the data raises; no window is produced in either
case since no state is returned. -/
theorem C8_construction_errors :
    (∀ (n bs : Nat) (sh : Bool) (sd : Option Nat) (r : Nat), n < bs →
      Iterator.init n bs sh sd r =
        Except.error "Input data length is shorter than batch_size\nAdjust batch_size") ∧
    (∀ (xs : List String) (ys : List Int) (bs : Nat) (sh : Bool)
      (sd : Option Nat) (r : Nat), xs.length ≠ ys.length →
      SmilesIterator.init xs (some ys) bs sh sd r =
        Except.error "X (images tensor) and y (labels) should have the same length.") := by
  constructor
  · intro n bs sh sd r h
    simp [Iterator.init, h]
  · intro xs ys bs sh sd r h
    simp [SmilesIterator.init, h]

/-- Witness for C8 at concrete inputs `n = 2 < 3 = batch_size` and
one string with zero labels. -/
theorem C8_construction_errors_witness :
    Iterator.init 2 3 false none 0 =
      Except.error "Input data length is shorter than batch_size\nAdjust batch_size" ∧
    SmilesIterator.init ["C"] (some ([] : List Int)) 1 false none 0 =
      Except.error "X (images tensor) and y (labels) should have the same length." :=
  ⟨C8_construction_errors.1 2 3 false none 0 (by decide),
   C8_construction_errors.2 ["C"] [] 1 false none 0 (by decide)⟩

/-- C9: `Iterator.reset` zeroes `batch_index` and changes nothing else
(in particular `total_batches_seen` keeps counting); consequently, for a
seeded shuffling iterator the pull following a reset can differ from the
first pull of a freshly constructed identical iterator, shown here
concretely with the permutation model `rotate` on
`(n, batch_size, seed) = (4, 2, 0)` after two pulls. -/
theorem C9_reset_frame :
    (∀ st : IterState, (resetS st).batch_index = 0 ∧
      (resetS st).total_batches_seen = st.total_batches_seen ∧
      (resetS st).n = st.n ∧ (resetS st).batch_size = st.batch_size ∧
      (resetS st).shuffle = st.shuffle ∧ (resetS st).seed = st.seed ∧
      (resetS st).index_array = st.index_array ∧ (resetS st).rng = st.rng) ∧
    (pullN (fun r n => (List.range n).rotate r) (fun r => r + 1)
        (resetS (pullN (fun r n => (List.range n).rotate r) (fun r => r + 1)
          (initState 4 2 true (some 0) 0) 2).2) 1).1 ≠
      (pullN (fun r n => (List.range n).rotate r) (fun r => r + 1)
        (initState 4 2 true (some 0) 0) 1).1 := by
  refine ⟨fun st => ⟨rfl, rfl, rfl, rfl, rfl, rfl, rfl, rfl⟩, by decide⟩

/-- Whatever index `charToIntAux` reports beyond its accumulator points at
the sought character. -/
lemma charToIntAux_sound (c : Char) :
    ∀ (ds : List Char) (i : Nat) (acc : Option Nat) (k : Nat),
      charToIntAux ds c i acc = some k →
      acc = some k ∨ ∃ j, j < ds.length ∧ ds.get? j = some c ∧ k = i + j := by
  intro ds
  induction ds with
  | nil => intro i acc k h; exact Or.inl h
  | cons d ds ih =>
    intro i acc k h
    rw [charToIntAux] at h
    rcases ih (i + 1) _ k h with hacc | ⟨j, hj, hg, hk⟩
    · by_cases hd : d = c
      · rw [if_pos hd] at hacc
        injection hacc with hik
        exact Or.inr ⟨0, by simp, by simp [hd], by omega⟩
      · rw [if_neg hd] at hacc
        exact Or.inl hacc
    · exact Or.inr ⟨j + 1, by simpa using hj, by simpa using hg, by omega⟩

/-- `charToInt` returns an index of the character it was asked for. -/
lemma charToInt_sound (cs : List Char) (c : Char) (k : Nat)
    (h : charToInt cs c = some k) : cs.get? k = some c := by
  rcases charToIntAux_sound c cs 0 none k h with hacc | ⟨j, _, hg, hk⟩
  · cases hacc
  · rw [hk]; simpa using hg

lemma charToIntAux_isSome_mono (c : Char) :
    ∀ (ds : List Char) (i : Nat) (acc : Option Nat), acc.isSome →
      (charToIntAux ds c i acc).isSome := by
  intro ds
  induction ds with
  | nil => intro i acc h; exact h
  | cons d ds ih =>
    intro i acc h
    rw [charToIntAux]
    apply ih
    by_cases hd : d = c <;> simp [hd, h]

/-- Membership in the charset guarantees a successful dict lookup. -/
lemma charToInt_isSome_of_mem (cs : List Char) (c : Char) (h : c ∈ cs) :
    (charToInt cs c).isSome := by
  unfold charToInt
  generalize 0 = i
  generalize hacc : (none : Option Nat) = acc
  clear hacc
  induction cs generalizing i acc with
  | nil => cases h
  | cons d ds ih =>
    rw [charToIntAux]
    rcases List.mem_cons.1 h with hd | hds
    · apply charToIntAux_isSome_mono
      simp [hd]
    · exact ih hds _ _

lemma charToIntAux_of_not_mem (c : Char) :
    ∀ (ds : List Char) (i : Nat) (acc : Option Nat), c ∉ ds →
      charToIntAux ds c i acc = acc := by
  intro ds
  induction ds with
  | nil => intro i acc _; rfl
  | cons d ds ih =>
    intro i acc h
    rw [charToIntAux]
    have hd : d ≠ c := fun hdc => h (hdc ▸ List.mem_cons_self d ds)
    rw [if_neg hd]
    exact ih _ _ (fun hc => h (List.mem_cons_of_mem d hc))

/-- On a duplicate-free charset the dict lookup returns the unique
position of the character. -/
lemma charToIntAux_nodup (c : Char) :
    ∀ (ds : List Char) (j i : Nat) (acc : Option Nat), ds.Nodup →
      ds.get? j = some c → charToIntAux ds c i acc = some (i + j) := by
  intro ds
  induction ds with
  | nil => intro j i acc _ hg; cases hg
  | cons d ds ih =>
    intro j i acc hnd hg
    rw [charToIntAux]
    rcases List.nodup_cons.1 hnd with ⟨hdnot, hnd'⟩
    cases j with
    | zero =>
      have hdc : d = c := by simpa using hg
      rw [if_pos hdc]
      rw [charToIntAux_of_not_mem c ds (i + 1) (some i) (hdc ▸ hdnot)]
      simp
    | succ j =>
      have hg' : ds.get? j = some c := by simpa using hg
      have hcds : c ∈ ds := List.get?_mem hg'
      have hd : d ≠ c := fun hdc => hdnot (hdc ▸ hcds)
      rw [if_neg hd, ih j (i + 1) acc hnd' hg']
      congr 1
      omega

lemma charToInt_nodup (cs : List Char) (c : Char) (j : Nat) (hnd : cs.Nodup)
    (hg : cs.get? j = some c) : charToInt cs c = some j := by
  unfold charToInt
  rw [charToIntAux_nodup c cs j 0 none hnd hg]
  simp

/-- For a member of the charset, the dict index (with any default)
points back at the character. -/
lemma charToInt_getD_get (cs : List Char) (c : Char) (h : c ∈ cs) :
    cs.get? ((charToInt cs c).getD 0) = some c := by
  rcases Option.isSome_iff_exists.1 (charToInt_isSome_of_mem cs c h) with ⟨k, hk⟩
  rw [hk]
  exact charToInt_sound cs c k hk

lemma charToInt_getD_lt (cs : List Char) (c : Char) (h : c ∈ cs) :
    (charToInt cs c).getD 0 < cs.length := by
  have := charToInt_getD_get cs c h
  exact (List.get?_eq_some.1 this).1

lemma maxLen_cons (a : String) (l : List String) :
    maxLen (a :: l) = max a.length (maxLen l) := rfl

lemma maxLen_ge (l : List String) : ∀ s ∈ l, s.length ≤ maxLen l := by
  induction l with
  | nil => intro s h; cases h
  | cons a l ih =>
    intro s h
    rw [maxLen_cons]
    rcases List.mem_cons.1 h with rfl | hs
    · exact Nat.le_max_left _ _
    · exact Nat.le_trans (ih s hs) (Nat.le_max_right _ _)

lemma maxLen_attained (l : List String) (h : l ≠ []) :
    ∃ s ∈ l, s.length = maxLen l := by
  induction l with
  | nil => cases h rfl
  | cons a l ih =>
    by_cases hl : l = []
    · subst hl
      exact ⟨a, by simp, by simp [maxLen_cons, maxLen]⟩
    · obtain ⟨s, hs, hlen⟩ := ih hl
      rw [maxLen_cons]
      by_cases hcmp : maxLen l ≤ a.length
      · exact ⟨a, by simp, by omega⟩
      · exact ⟨s, List.mem_cons_of_mem a hs, by omega⟩

/-- C6: after `fit(strings, extra_chars, extra_pad)` the vocabulary is
exactly the characters of the strings united with `extra_chars`, each
vocabulary character corresponds bijectively to an integer index, and
`pad` is the longest string length plus `extra_pad`. -/
theorem C6_fit_vocabulary (e : SmilesEnumerator) (smiles : List String)
    (extra_chars : List Char) (extra_pad : Nat) :
    (∀ c : Char, c ∈ (fit e smiles extra_chars extra_pad).charset ↔
      ((∃ s ∈ smiles, c ∈ s.toList) ∨ c ∈ extra_chars)) ∧
    ((fit e smiles extra_chars extra_pad).pad = maxLen smiles + extra_pad) ∧
    (∀ s ∈ smiles, s.length ≤ maxLen smiles) ∧
    (smiles ≠ [] → ∃ s ∈ smiles, s.length = maxLen smiles) ∧
    (∀ c ∈ (fit e smiles extra_chars extra_pad).charset,
      ∃ i, charToInt (fit e smiles extra_chars extra_pad).charset c = some i ∧
        intToChar (fit e smiles extra_chars extra_pad).charset i = some c) ∧
    (∀ i, i < (fit e smiles extra_chars extra_pad).charset.length →
      ∃ c, intToChar (fit e smiles extra_chars extra_pad).charset i = some c ∧
        charToInt (fit e smiles extra_chars extra_pad).charset c = some i) := by
  have hnd : (fit e smiles extra_chars extra_pad).charset.Nodup := by
    unfold fit
    exact List.nodup_dedup _
  refine ⟨?_, rfl, maxLen_ge smiles, maxLen_attained smiles, ?_, ?_⟩
  · intro c
    unfold fit
    simp only [List.mem_dedup, List.mem_append, List.mem_flatten, List.mem_map]
    constructor
    · rintro (⟨l, ⟨s, hs, rfl⟩, hc⟩ | hc)
      · exact Or.inl ⟨s, hs, hc⟩
      · exact Or.inr hc
    · rintro (⟨s, hs, hc⟩ | hc)
      · exact Or.inl ⟨s.toList, ⟨s, hs, rfl⟩, hc⟩
      · exact Or.inr hc
  · intro c hc
    rcases Option.isSome_iff_exists.1
      (charToInt_isSome_of_mem _ c hc) with ⟨k, hk⟩
    exact ⟨k, hk, charToInt_sound _ c k hk⟩
  · intro i hi
    rcases List.get?_eq_get hi with hg
    refine ⟨(fit e smiles extra_chars extra_pad).charset.get ⟨i, hi⟩, hg, ?_⟩
    exact charToInt_nodup _ _ i hnd hg

/-- Witness for C6 at the claim's own scenario
`fit(["CCO", "CCN"], extra_chars := ["\\"], extra_pad := 2)`:
the vocabulary is exactly `{C, O, N, \}` and `pad = 5`. -/
theorem C6_fit_vocabulary_witness :
    (fit SmilesEnumerator.default ["CCO", "CCN"] ['\\'] 2).charset
        = ['O', 'C', 'N', '\\'] ∧
    (fit SmilesEnumerator.default ["CCO", "CCN"] ['\\'] 2).pad = 5 ∧
    (∃ s ∈ ["CCO", "CCN"], String.length s = maxLen ["CCO", "CCN"]) ∧
    ('C' ∈ (fit SmilesEnumerator.default ["CCO", "CCN"] ['\\'] 2).charset ↔
      ((∃ s ∈ ["CCO", "CCN"], 'C' ∈ s.toList) ∨ 'C' ∈ ['\\'])) :=
  ⟨by decide,
   (C6_fit_vocabulary SmilesEnumerator.default ["CCO", "CCN"] ['\\'] 2).2.1.trans
     (by decide),
   (C6_fit_vocabulary SmilesEnumerator.default ["CCO", "CCN"] ['\\'] 2).2.2.2.1
     (by decide),
   (C6_fit_vocabulary SmilesEnumerator.default ["CCO", "CCN"] ['\\'] 2).1 'C'⟩

lemma set_replicate_zero (k w : Nat) (h : k < w) :
    (List.replicate w 0 : List Nat).set k 1 =
      List.replicate k 0 ++ 1 :: List.replicate (w - k - 1) 0 := by
  induction k generalizing w with
  | zero =>
    cases w with
    | zero => omega
    | succ w => simp [List.replicate_succ]
  | succ k ih =>
    cases w with
    | zero => omega
    | succ w =>
      have harith : w + 1 - (k + 1) - 1 = w - k - 1 := by omega
      simp only [List.replicate_succ, List.set_cons_succ, List.cons_append,
        List.cons.injEq, true_and]
      rw [harith]
      exact ih w (by omega)

lemma oneHotRow_eq (w k : Nat) (h : k < w) :
    oneHotRow w k = List.replicate k 0 ++ 1 :: List.replicate (w - k - 1) 0 :=
  set_replicate_zero k w h

lemma zeroRow_sum (w : Nat) : (zeroRow w).sum = 0 := by
  simp [zeroRow, List.sum_replicate]

lemma oneHotRow_sum (w k : Nat) (h : k < w) : (oneHotRow w k).sum = 1 := by
  rw [oneHotRow_eq w k h]
  simp [List.sum_replicate]

lemma oneHotRow_length (w k : Nat) : (oneHotRow w k).length = w := by
  simp [oneHotRow]

lemma argmaxAux_replicate_zero (m : Nat) :
    ∀ (bi bv i : Nat), 0 < bv → argmaxAux (List.replicate m 0) bi bv i = bi := by
  induction m with
  | zero => intro bi bv i _; rfl
  | succ m ih =>
    intro bi bv i h
    rw [List.replicate_succ, argmaxAux, if_neg (by omega)]
    exact ih bi bv (i + 1) h

lemma argmaxAux_seek (k : Nat) :
    ∀ (m bi i : Nat),
      argmaxAux (List.replicate k 0 ++ 1 :: List.replicate m 0) bi 0 i = i + k := by
  induction k with
  | zero =>
    intro m bi i
    simp only [List.replicate, List.nil_append, argmaxAux, if_pos Nat.zero_lt_one]
    rw [argmaxAux_replicate_zero m i 1 (i + 1) Nat.zero_lt_one]
    omega
  | succ k ih =>
    intro m bi i
    rw [List.replicate_succ, List.cons_append, argmaxAux, if_neg (by omega), ih m bi (i + 1)]
    omega

/-- `np.argmax` of a one-hot row recovers the hot index. -/
lemma argmax_oneHotRow (w k : Nat) (h : k < w) : argmax (oneHotRow w k) = k := by
  rw [oneHotRow_eq w k h]
  cases k with
  | zero =>
    simp only [List.replicate, List.nil_append, argmax]
    exact argmaxAux_replicate_zero _ 0 1 1 Nat.zero_lt_one
  | succ k =>
    simp only [List.replicate_succ, List.cons_append, argmax]
    rw [argmaxAux_seek k (w - (k + 1) - 1) 0 1]
    omega

lemma get?_append_len {α : Type} (P Q : List α) :
    (P ++ Q).get? P.length = Q.get? 0 := by
  induction P with
  | nil => rfl
  | cons a P ih => simpa using ih

lemma set_append_len {α : Type} (P Q : List α) (x : α) :
    (P ++ Q).set P.length x = P ++ Q.set 0 x := by
  induction P with
  | nil => rfl
  | cons a P ih => simpa using ih

/-- Writing into the first still-zero position appends one one-hot row. -/
lemma writeCell_zeroRow (P R : List (List Nat)) (w k : Nat) (h : k < w) :
    writeCell (P ++ zeroRow w :: R) ((P.length : Nat) : Int) k =
      some (P ++ oneHotRow w k :: R) := by
  have hlen : P.length < (P ++ zeroRow w :: R).length := by
    rw [List.length_append]
    simp
  have hidx : npIndex (P ++ zeroRow w :: R).length ((P.length : Nat) : Int) =
      some P.length := by
    unfold npIndex
    rw [if_pos (by positivity), if_pos (by exact_mod_cast hlen)]
    simp
  have hget : (P ++ zeroRow w :: R).get? P.length = some (zeroRow w) := by
    rw [get?_append_len]
    rfl
  have hset1 : setOne (zeroRow w) k = some (oneHotRow w k) := by
    unfold setOne
    rw [if_pos (by simpa [zeroRow] using h)]
    rfl
  simp only [writeCell, hidx, hget, hset1, set_append_len, List.set_cons_zero]

/-- Running the encode loop over in-vocabulary characters writes their
one-hot rows into the zero region one by one. -/
lemma encodeGo_zeros (cs : List Char) (diff : Int) :
    ∀ (u tail : List Char) (j : Nat) (P : List (List Nat)) (r : Nat),
      (∀ c ∈ u, c ∈ cs) →
      ((j : Int) + diff = (P.length : Int)) →
      encodeGo cs diff (u ++ tail) j
          (P ++ List.replicate (u.length + r) (zeroRow cs.length)) =
        encodeGo cs diff tail (j + u.length)
          ((P ++ u.map (fun c => oneHotRow cs.length ((charToInt cs c).getD 0)))
            ++ List.replicate r (zeroRow cs.length)) := by
  intro u
  induction u with
  | nil =>
    intro tail j P r _ _
    simp
  | cons c u ih =>
    intro tail j P r hu hpos
    have hc : c ∈ cs := hu c (List.mem_cons_self c u)
    rcases Option.isSome_iff_exists.1 (charToInt_isSome_of_mem cs c hc) with ⟨k, hk⟩
    have hkd : (charToInt cs c).getD 0 = k := by rw [hk]; rfl
    have hklt : k < cs.length := by
      have := charToInt_getD_lt cs c hc
      rwa [hkd] at this
    have hrep : (c :: u).length + r = (u.length + r) + 1 := by simp; omega
    have hposP : ((j : Int) + diff) = ((P.length : Nat) : Int) := hpos
    rw [hrep, List.replicate_succ, List.cons_append]
    simp only [encodeGo, hk, hposP, writeCell_zeroRow P _ cs.length k hklt]
    have happ : P ++ oneHotRow cs.length k :: List.replicate (u.length + r) (zeroRow cs.length) =
        (P ++ [oneHotRow cs.length k]) ++ List.replicate (u.length + r) (zeroRow cs.length) := by
      simp
    rw [happ]
    have hrec := ih tail (j + 1) (P ++ [oneHotRow cs.length k]) r
      (fun d hd => hu d (List.mem_cons_of_mem c hd))
      (by rw [List.length_append, List.length_singleton]; push_cast; omega)
    rw [hrec]
    have harr : j + 1 + u.length = j + (c :: u).length := by simp; omega
    rw [harr]
    congr 2
    simp [hkd]

/-- Fully successful encoding of an all-vocabulary string fitting the
zero region. -/
lemma encodeGo_complete (cs : List Char) (diff : Int) (u : List Char)
    (j : Nat) (P : List (List Nat)) (r : Nat)
    (hu : ∀ c ∈ u, c ∈ cs) (hpos : (j : Int) + diff = (P.length : Int)) :
    encodeGo cs diff u j
        (P ++ List.replicate (u.length + r) (zeroRow cs.length)) =
      ((P ++ u.map (fun c => oneHotRow cs.length ((charToInt cs c).getD 0)))
        ++ List.replicate r (zeroRow cs.length), 0) := by
  have h := encodeGo_zeros cs diff u [] j P r hu hpos
  rw [List.append_nil] at h
  rw [h]
  rfl

/-- `transform` on one in-vocabulary string of admissible length: a clean
row of one-hots in the non-padding region, zero errors. -/
lemma encodeRow_success (e : SmilesEnumerator) (s : List Char)
    (hs : ∀ c ∈ s, c ∈ e.charset) (hlen : s.length ≤ e.pad) :
    encodeRow e s =
      (if e.leftpad then
        List.replicate (e.pad - s.length) (zeroRow e.charset.length) ++
          s.map (fun c => oneHotRow e.charset.length ((charToInt e.charset c).getD 0))
      else
        s.map (fun c => oneHotRow e.charset.length ((charToInt e.charset c).getD 0)) ++
          List.replicate (e.pad - s.length) (zeroRow e.charset.length), 0) := by
  unfold encodeRow
  by_cases hlp : e.leftpad
  · rw [if_pos hlp, if_pos hlp]
    have hsplit : zeroMat e.pad e.charset.length =
        List.replicate (e.pad - s.length) (zeroRow e.charset.length) ++
          List.replicate (s.length + 0) (zeroRow e.charset.length) := by
      unfold zeroMat
      rw [← List.replicate_add]
      congr 1
      omega
    rw [hsplit]
    have h := encodeGo_complete e.charset ((e.pad : Int) - (s.length : Int)) s 0
      (List.replicate (e.pad - s.length) (zeroRow e.charset.length)) 0
      hs (by rw [List.length_replicate]; push_cast; omega)
    rw [h]
    simp
  · rw [if_neg hlp, if_neg hlp]
    have hsplit : zeroMat e.pad e.charset.length =
        ([] : List (List Nat)) ++
          List.replicate (s.length + (e.pad - s.length)) (zeroRow e.charset.length) := by
      unfold zeroMat
      rw [List.nil_append]
      congr 1
      omega
    rw [hsplit]
    have h := encodeGo_complete e.charset 0 s 0 [] (e.pad - s.length) hs (by simp)
    rw [h]
    simp

lemma filter_replicate_zeroRow (a w : Nat) :
    (List.replicate a (zeroRow w)).filter (fun row => row.sum == 1) = [] := by
  induction a with
  | zero => rfl
  | succ a ih =>
    rw [List.replicate_succ, List.filter_cons]
    have : ((zeroRow w).sum == 1) = false := by
      rw [zeroRow_sum]
      rfl
    rw [this]
    simpa using ih

/-- Decoding a slab of the clean encode shape recovers the string. -/
lemma decodeRow_clean (cs : List Char) (u : List Char) (a b : Nat)
    (hu : ∀ c ∈ u, c ∈ cs) :
    decodeRow cs (List.replicate a (zeroRow cs.length) ++
        (u.map (fun c => oneHotRow cs.length ((charToInt cs c).getD 0)) ++
          List.replicate b (zeroRow cs.length))) = String.mk u := by
  unfold decodeRow
  rw [List.filter_append, List.filter_append, filter_replicate_zeroRow,
    filter_replicate_zeroRow]
  have hkeep : (u.map (fun c => oneHotRow cs.length ((charToInt cs c).getD 0))).filter
      (fun row => row.sum == 1) =
        u.map (fun c => oneHotRow cs.length ((charToInt cs c).getD 0)) := by
    rw [List.filter_eq_self]
    intro row hrow
    rcases List.mem_map.1 hrow with ⟨c, hc, rfl⟩
    have hk := charToInt_getD_lt cs c (hu c hc)
    rw [oneHotRow_sum _ _ hk]
    rfl
  rw [hkeep, List.nil_append, List.append_nil, List.map_map]
  congr 1
  have : ∀ c ∈ u,
      ((fun row => (intToChar cs (argmax row)).getD ' ') ∘
        fun c => oneHotRow cs.length ((charToInt cs c).getD 0)) c = id c := by
    intro c hc
    have hk := charToInt_getD_lt cs c (hu c hc)
    simp only [Function.comp_apply, id_eq]
    rw [argmax_oneHotRow _ _ hk]
    unfold intToChar
    rw [charToInt_getD_get cs c (hu c hc)]
    rfl
  rw [List.map_congr_left this, List.map_id]

/-- C2: for a string of vocabulary characters no longer than `pad`,
encoding with enumeration (re-serialization) disabled and decoding with
the same codec reproduces the string exactly, under either padding
convention. -/
theorem C2_roundtrip (e : SmilesEnumerator) (randomizeFn : String → String)
    (s : String) (henum : e.enumerate = false)
    (hs : ∀ c ∈ s.toList, c ∈ e.charset) (hlen : s.length ≤ e.pad) :
    reverse_transform e (transform e randomizeFn [s]).1 = [s] := by
  obtain ⟨data⟩ := s
  have hdata : (String.mk data).toList = data := rfl
  rw [hdata] at hs
  have hlen' : data.length ≤ e.pad := hlen
  have henc := encodeRow_success e data hs hlen'
  rcases hER : encodeRow e data with ⟨m, er⟩
  have hm : m = (if e.leftpad then
      List.replicate (e.pad - data.length) (zeroRow e.charset.length) ++
        List.map (fun c => oneHotRow e.charset.length ((charToInt e.charset c).getD 0)) data
    else
      List.map (fun c => oneHotRow e.charset.length ((charToInt e.charset c).getD 0)) data ++
        List.replicate (e.pad - data.length) (zeroRow e.charset.length)) := by
    rw [hER] at henc
    exact congrArg Prod.fst henc
  have htr : transform e randomizeFn [String.mk data] = ([m], er) := by
    simp [transform, henum, hdata, hER]
  rw [htr]
  unfold reverse_transform
  simp only [List.map_cons, List.map_nil]
  rw [hm]
  by_cases hlp : e.leftpad
  · rw [if_pos hlp]
    have h := decodeRow_clean e.charset data (e.pad - data.length) 0 hs
    rw [List.replicate_zero, List.append_nil] at h
    rw [h]
  · rw [if_neg hlp]
    have h := decodeRow_clean e.charset data 0 (e.pad - data.length) hs
    rw [List.replicate_zero, List.nil_append] at h
    rw [h]

/-- Witness for C2: the spec scenario vocabulary `"ABC"`, `pad = 5`,
round-tripping `"ABC"` under both padding conventions. -/
theorem C2_roundtrip_witness :
    (reverse_transform
        ⟨['A', 'B', 'C'], 5, true, true, false, false⟩
        (transform ⟨['A', 'B', 'C'], 5, true, true, false, false⟩ id ["ABC"]).1 =
      ["ABC"]) ∧
    (reverse_transform
        ⟨['A', 'B', 'C'], 5, false, true, false, false⟩
        (transform ⟨['A', 'B', 'C'], 5, false, true, false, false⟩ id ["ABC"]).1 =
      ["ABC"]) :=
  ⟨C2_roundtrip ⟨['A', 'B', 'C'], 5, true, true, false, false⟩ id "ABC" rfl
      (by decide) (by decide),
   C2_roundtrip ⟨['A', 'B', 'C'], 5, false, true, false, false⟩ id "ABC" rfl
      (by decide) (by decide)⟩

lemma charToInt_eq_none_of_not_mem (cs : List Char) (c : Char) (h : c ∉ cs) :
    charToInt cs c = none :=
  charToIntAux_of_not_mem c cs 0 none h

lemma npIndex_ne_none (len : Nat) (i : Int) (h1 : -(len : Int) ≤ i)
    (h2 : i < (len : Int)) : npIndex len i ≠ none := by
  unfold npIndex
  by_cases h0 : 0 ≤ i
  · rw [if_pos h0, if_pos h2]; simp
  · rw [if_neg h0, if_pos h1]; simp

lemma npIndex_some_lt (len : Nat) (i : Int) (ri : Nat)
    (h : npIndex len i = some ri) : ri < len := by
  unfold npIndex at h
  by_cases h0 : 0 ≤ i
  · rw [if_pos h0] at h
    by_cases h2 : i < (len : Int)
    · rw [if_pos h2] at h; injection h with h; omega
    · rw [if_neg h2] at h; cases h
  · rw [if_neg h0] at h
    by_cases h1 : -(len : Int) ≤ i
    · rw [if_pos h1] at h; injection h with h; omega
    · rw [if_neg h1] at h; cases h

/-- An out-of-range index (on either side) raises. -/
lemma npIndex_eq_none_of_lt (len : Nat) (i : Int) (h : i < -(len : Int)) :
    npIndex len i = none := by
  unfold npIndex
  rw [if_neg (by omega), if_neg (by omega)]

/-- As long as every character is in the vocabulary and every target
position is a legal NumPy index (wrap-around included), the row loop
finishes without counting an error. -/
lemma encodeGo_no_error (cs : List Char) (diff : Int) :
    ∀ (s : List Char) (j : Nat) (m : List (List Nat)),
      (∀ c ∈ s, c ∈ cs) →
      (∀ row ∈ m, row.length = cs.length) →
      (∀ i : Nat, i < s.length → npIndex m.length (((j + i : Nat) : Int) + diff) ≠ none) →
      (encodeGo cs diff s j m).2 = 0 := by
  intro s
  induction s with
  | nil => intro j m _ _ _; rfl
  | cons c rest ih =>
    intro j m hs hrows hbound
    have hc : c ∈ cs := hs c (List.mem_cons_self c rest)
    rcases Option.isSome_iff_exists.1 (charToInt_isSome_of_mem cs c hc) with ⟨k, hk⟩
    have hklt : k < cs.length := by
      have h1 := charToInt_getD_lt cs c hc
      rw [hk] at h1
      simpa using h1
    have hb0 : npIndex m.length ((j : Int) + diff) ≠ none := by
      have := hbound 0 (by simp)
      simpa using this
    rcases hri : npIndex m.length ((j : Int) + diff) with _ | ri
    · exact absurd hri hb0
    have hrilt : ri < m.length := npIndex_some_lt _ _ _ hri
    have hget : ∃ row, m.get? ri = some row := by
      rcases List.get?_eq_get hrilt with hg
      exact ⟨_, hg⟩
    rcases hget with ⟨row, hrow⟩
    have hrowlen : row.length = cs.length := hrows row (List.get?_mem hrow)
    have hset : setOne row k = some (row.set k 1) := by
      unfold setOne
      rw [if_pos (by omega)]
    have hwc : writeCell m ((j : Int) + diff) k = some (m.set ri (row.set k 1)) := by
      simp only [writeCell, hri, hrow, hset]
    simp only [encodeGo, hk, hwc]
    apply ih (j + 1)
    · exact fun d hd => hs d (List.mem_cons_of_mem c hd)
    · intro row' hrow'
      rcases List.mem_or_eq_of_mem_set hrow' with hmem | rfl
      · exact hrows row' hmem
      · rw [List.length_set]
        exact hrowlen
    · intro i hi
      rw [List.length_set]
      have := hbound (i + 1) (by simp; omega)
      have harith : j + 1 + i = j + (i + 1) := by omega
      rw [harith]
      exact this

/-- Shape of `transform` on a cons: the head row's slab and error count
are combined with the rest; no row is dropped. -/
lemma transform_cons (e : SmilesEnumerator) (f : String → String) (s : String)
    (rest : List String) :
    transform e f (s :: rest) =
      ((encodeRow e ((if e.enumerate then f s else s).toList)).1 ::
          (transform e f rest).1,
        (encodeRow e ((if e.enumerate then f s else s).toList)).2 +
          (transform e f rest).2) := by
  rcases h1 : encodeRow e ((if e.enumerate then f s else s).toList) with ⟨m, er⟩
  rcases h2 : transform e f rest with ⟨ms, ers⟩
  simp only [String.toList] at h1
  simp [transform, h1, h2]

lemma transform_length (e : SmilesEnumerator) (f : String → String) :
    ∀ l : List String, (transform e f l).1.length = l.length := by
  intro l
  induction l with
  | nil => rfl
  | cons s rest ih =>
    rw [transform_cons]
    simpa using ih

/-- C4 counterexample: with `leftpad = true`, vocabulary `['A']` and
`pad = 1`, the string `"AA"` is longer than `pad` (`diff = -1` is
negative), yet no error is counted and nothing is truncated: NumPy's
negative indexing wraps the write of the first character to the last row,
so the row encodes fully with error count 0, contradicting the claimed
increment for strings longer than `pad`. -/
theorem C4_counterexample :
    encodeRow ⟨['A'], 1, true, true, false, false⟩ ['A', 'A'] = ([[1]], 0) ∧
    ¬ ((encodeRow ⟨['A'], 1, true, true, false, false⟩ ['A', 'A']).2 = 1) := by
  decide

/-- C4 (amended): (a) an out-of-vocabulary character stops the row at the
failing position, keeps the already-written one-hots, and counts exactly
one error, under both padding conventions; (b) a string longer than `pad`
does so under right-padding, failing at position `pad` with the first
`pad` characters written; (c) under left-padding it does so only when the
length exceeds `2*pad`, failing at the first character with nothing
written; (d) under left-padding with `pad < len ≤ 2*pad` the row is
processed with wrap-around and NO error; and (e) failing rows stay in the
batch: `transform` keeps one slab per input row and aggregates the error
counts. -/
theorem C4_encode_errors_amended :
    (∀ (e : SmilesEnumerator) (u w' : List Char) (c : Char),
      (∀ d ∈ u, d ∈ e.charset) → c ∉ e.charset →
      (u ++ c :: w').length ≤ e.pad →
      encodeRow e (u ++ c :: w') =
        (if e.leftpad then
          List.replicate (e.pad - (u ++ c :: w').length) (zeroRow e.charset.length) ++
            (u.map (fun d => oneHotRow e.charset.length ((charToInt e.charset d).getD 0)) ++
              List.replicate (w'.length + 1) (zeroRow e.charset.length))
        else
          u.map (fun d => oneHotRow e.charset.length ((charToInt e.charset d).getD 0)) ++
            List.replicate (e.pad - u.length) (zeroRow e.charset.length), 1)) ∧
    (∀ (e : SmilesEnumerator) (s : List Char),
      e.leftpad = false → (∀ d ∈ s, d ∈ e.charset) → e.pad < s.length →
      encodeRow e s =
        ((s.take e.pad).map
          (fun d => oneHotRow e.charset.length ((charToInt e.charset d).getD 0)), 1)) ∧
    (∀ (e : SmilesEnumerator) (s : List Char),
      e.leftpad = true → 2 * e.pad < s.length →
      encodeRow e s = (zeroMat e.pad e.charset.length, 1)) ∧
    (∀ (e : SmilesEnumerator) (s : List Char),
      e.leftpad = true → (∀ d ∈ s, d ∈ e.charset) →
      e.pad < s.length → s.length ≤ 2 * e.pad →
      (encodeRow e s).2 = 0) ∧
    (∀ (e : SmilesEnumerator) (f : String → String) (s : String)
      (rest : List String),
      (transform e f (s :: rest)).1.length = rest.length + 1 ∧
      (transform e f (s :: rest)).2 =
        (encodeRow e ((if e.enumerate then f s else s).toList)).2 +
          (transform e f rest).2) := by
  refine ⟨?_, ?_, ?_, ?_, ?_⟩
  · -- (a) out-of-vocabulary character
    intro e u w' c hu hc hlen
    have hnone : charToInt e.charset c = none := charToInt_eq_none_of_not_mem _ c hc
    have hltot : (u ++ c :: w').length = u.length + (w'.length + 1) := by
      simp
    unfold encodeRow
    by_cases hlp : e.leftpad
    · rw [if_pos hlp, if_pos hlp]
      have hsplit : zeroMat e.pad e.charset.length =
          List.replicate (e.pad - (u ++ c :: w').length) (zeroRow e.charset.length) ++
            List.replicate (u.length + (w'.length + 1)) (zeroRow e.charset.length) := by
        unfold zeroMat
        rw [← List.replicate_add]
        congr 1
        omega
      rw [hsplit]
      rw [encodeGo_zeros e.charset _ u (c :: w') 0 _ (w'.length + 1) hu
        (by rw [List.length_replicate]; push_cast; omega)]
      simp only [encodeGo, hnone]
      simp [List.append_assoc]
    · rw [if_neg hlp, if_neg hlp]
      have hsplit : zeroMat e.pad e.charset.length =
          ([] : List (List Nat)) ++
            List.replicate (u.length + (e.pad - (u ++ c :: w').length + (w'.length + 1)))
              (zeroRow e.charset.length) := by
        unfold zeroMat
        rw [List.nil_append]
        congr 1
        omega
      rw [hsplit]
      rw [encodeGo_zeros e.charset 0 u (c :: w') 0 []
        (e.pad - (u ++ c :: w').length + (w'.length + 1)) hu (by simp)]
      simp only [encodeGo, hnone]
      have hpr : e.pad - (u ++ c :: w').length + (w'.length + 1) = e.pad - u.length := by
        simp only [List.length_append, List.length_cons]
        omega
      rw [hpr]
      simp
  · -- (b) right-padding overflow: fails at position pad
    intro e s hlp hs hover
    have hu : ∀ d ∈ s.take e.pad, d ∈ e.charset :=
      fun d hd => hs d (List.take_subset _ _ hd)
    have hulen : (s.take e.pad).length = e.pad := by
      rw [List.length_take]
      omega
    have hdrop : ∃ c w', s.drop e.pad = c :: w' := by
      rcases hd : s.drop e.pad with _ | ⟨c, w'⟩
      · have hld := List.length_drop e.pad s
        rw [hd] at hld
        simp only [List.length_nil] at hld
        omega
      · exact ⟨c, w', rfl⟩
    rcases hdrop with ⟨c, w', hdrop⟩
    have hcmem : c ∈ e.charset := by
      apply hs
      have hcd : c ∈ s.drop e.pad := by rw [hdrop]; exact List.mem_cons_self c w'
      exact List.drop_subset _ _ hcd
    rcases Option.isSome_iff_exists.1 (charToInt_isSome_of_mem _ c hcmem) with ⟨k, hk⟩
    have hsplitS : s = s.take e.pad ++ (c :: w') := by
      rw [← hdrop, List.take_append_drop]
    unfold encodeRow
    rw [if_neg (by rw [hlp]; exact Bool.false_ne_true)]
    have hsplit : zeroMat e.pad e.charset.length =
        ([] : List (List Nat)) ++
          List.replicate ((s.take e.pad).length + 0) (zeroRow e.charset.length) := by
      unfold zeroMat
      rw [List.nil_append, hulen]
      simp
    conv_lhs => rw [hsplitS, hsplit]
    rw [encodeGo_zeros e.charset 0 (s.take e.pad) (c :: w') 0 [] 0 hu (by simp)]
    have hwcnone : writeCell
        (([] ++ (s.take e.pad).map
          (fun d => oneHotRow e.charset.length ((charToInt e.charset d).getD 0))) ++
          List.replicate 0 (zeroRow e.charset.length))
        (((0 + (s.take e.pad).length : Nat) : Int) + 0) k = none := by
      have hmlen : (([] ++ (s.take e.pad).map
          (fun d => oneHotRow e.charset.length ((charToInt e.charset d).getD 0))) ++
          List.replicate 0 (zeroRow e.charset.length)).length = e.pad := by
        simp only [List.nil_append, List.replicate_zero, List.append_nil,
          List.length_map]
        exact hulen
      have hidx : npIndex (([] ++ (s.take e.pad).map
          (fun d => oneHotRow e.charset.length ((charToInt e.charset d).getD 0))) ++
          List.replicate 0 (zeroRow e.charset.length)).length
          (((0 + (s.take e.pad).length : Nat) : Int) + 0) = none := by
        rw [hmlen]
        unfold npIndex
        rw [if_pos (by positivity), if_neg (by rw [hulen]; push_cast; omega)]
      simp only [writeCell, hidx]
    simp only [encodeGo, hk, hwcnone]
    simp
  · -- (c) left-padding with length > 2*pad: immediate failure
    intro e s hlp hover
    cases s with
    | nil => simp only [List.length_nil] at hover; omega
    | cons c w' =>
      unfold encodeRow
      rw [if_pos (by rw [hlp])]
      have hneg : ((0 : Nat) : Int) + ((e.pad : Int) - (((c :: w').length : Nat) : Int)) <
          -((zeroMat e.pad e.charset.length).length : Int) := by
        rw [zeroMat, List.length_replicate]
        simp only [List.length_cons] at hover ⊢
        push_cast
        omega
      have hwcnone : ∀ k, writeCell (zeroMat e.pad e.charset.length)
          (((0 : Nat) : Int) + ((e.pad : Int) - (((c :: w').length : Nat) : Int))) k = none := by
        intro k
        simp only [writeCell, npIndex_eq_none_of_lt _ _ hneg]
      rcases hcti : charToInt e.charset c with _ | k
      · simp only [encodeGo, hcti]
      · simp only [encodeGo, hcti, hwcnone k]
  · -- (d) left-padding with pad < length ≤ 2*pad: wrap-around, no error
    intro e s hlp hs hover hle2
    unfold encodeRow
    rw [if_pos (by rw [hlp])]
    apply encodeGo_no_error
    · exact hs
    · intro row hrow
      rcases List.eq_of_mem_replicate hrow with rfl
      simp [zeroRow]
    · intro i hi
      apply npIndex_ne_none
      · rw [zeroMat, List.length_replicate]
        push_cast
        omega
      · rw [zeroMat, List.length_replicate]
        push_cast
        omega
  · -- (e) the batch is not aborted: one slab per row, aggregated errors
    intro e f s rest
    rw [transform_cons]
    exact ⟨by simpa using transform_length e f rest, rfl⟩

/-- Witness for C4 (amended) at concrete inputs: an out-of-vocabulary
character mid-string under left-padding, a right-padding overflow, a
left-padding overflow beyond `2*pad`, and a wrap-around case. -/
theorem C4_encode_errors_amended_witness :
    (encodeRow ⟨['A', 'B', 'C'], 5, true, true, false, false⟩ (['A'] ++ 'X' :: ['C']) =
      (if (true : Bool) then
        List.replicate (5 - (['A'] ++ 'X' :: ['C']).length) (zeroRow 3) ++
          (['A'].map (fun d => oneHotRow 3 ((charToInt ['A', 'B', 'C'] d).getD 0)) ++
            List.replicate (['C'].length + 1) (zeroRow 3))
      else
        ['A'].map (fun d => oneHotRow 3 ((charToInt ['A', 'B', 'C'] d).getD 0)) ++
          List.replicate (5 - ['A'].length) (zeroRow 3), 1)) ∧
    (encodeRow ⟨['A', 'B'], 2, false, true, false, false⟩ ['A', 'B', 'A'] =
      ((['A', 'B', 'A'].take 2).map
        (fun d => oneHotRow 2 ((charToInt ['A', 'B'] d).getD 0)), 1)) ∧
    (encodeRow ⟨['A', 'B'], 2, true, true, false, false⟩ ['A', 'B', 'A', 'B', 'A'] =
      (zeroMat 2 2, 1)) ∧
    ((encodeRow ⟨['A', 'B'], 2, true, true, false, false⟩ ['A', 'B', 'A']).2 = 0) :=
  ⟨C4_encode_errors_amended.1 ⟨['A', 'B', 'C'], 5, true, true, false, false⟩
      ['A'] ['C'] 'X' (by decide) (by decide) (by decide),
   C4_encode_errors_amended.2.1 ⟨['A', 'B'], 2, false, true, false, false⟩
      ['A', 'B', 'A'] rfl (by decide) (by decide),
   C4_encode_errors_amended.2.2.1 ⟨['A', 'B'], 2, true, true, false, false⟩
      ['A', 'B', 'A', 'B', 'A'] rfl (by decide),
   C4_encode_errors_amended.2.2.2.1 ⟨['A', 'B'], 2, true, true, false, false⟩
      ['A', 'B', 'A'] rfl (by decide) (by decide) (by decide)⟩

lemma getD_mem {α : Type} (l : List α) (i : Nat) (d : α) (h : i < l.length) :
    l.getD i d ∈ l := by
  induction l generalizing i with
  | nil => simp at h
  | cons a l ih =>
    cases i with
    | zero => simp [List.getD]
    | succ i =>
      have := ih i (by simpa using h)
      simpa [List.getD] using List.mem_cons_of_mem a this

lemma get?_zip {α β : Type} :
    ∀ (l1 : List α) (l2 : List β) (i : Nat) (a : α) (b : β),
      l1.get? i = some a → l2.get? i = some b →
      (l1.zip l2).get? i = some (a, b) := by
  intro l1
  induction l1 with
  | nil => intro l2 i a b h1 _; cases h1
  | cons x l1 ih =>
    intro l2 i a b h1 h2
    cases l2 with
    | nil => cases h2
    | cons y l2 =>
      cases i with
      | zero =>
        injection h1 with h1
        injection h2 with h2
        simp [List.zip, h1, h2]
      | succ i =>
        simp only [List.get?_cons_succ] at h1 h2 ⊢
        simpa [List.zip] using ih l2 i a b h1 h2

/-- Any value the resample loop returns is a draw that differs from the
row's original. -/
lemma pickHardNeg_spec (draw : Nat → String) (smile : String) :
    ∀ (fuel k : Nat) (hn : String), pickHardNeg draw smile fuel k = some hn →
      hn ≠ smile ∧ ∃ j, hn = draw j := by
  intro fuel
  induction fuel with
  | zero => intro k hn h; cases h
  | succ fuel ih =>
    intro k hn h
    rw [pickHardNeg] at h
    by_cases hd : draw k = smile
    · rw [if_pos hd] at h
      exact ih (k + 1) hn h
    · rw [if_neg hd] at h
      injection h with h
      subst h
      exact ⟨hd, k, rfl⟩

/-- While every draw equals the row's original, the loop never returns. -/
lemma pickHardNeg_none_of_all_eq (draw : Nat → String) (smile : String)
    (h : ∀ j, draw j = smile) :
    ∀ (fuel k : Nat), pickHardNeg draw smile fuel k = none := by
  intro fuel
  induction fuel with
  | zero => intro k; rfl
  | succ fuel ih =>
    intro k
    rw [pickHardNeg, if_pos (h k)]
    exact ih (k + 1)

lemma hardNegatives_spec (draw : Nat → Nat → String) (fuel : Nat) :
    ∀ (ss : List String) (i0 : Nat) (hns : List String),
      hardNegatives draw fuel i0 ss = some hns →
      ∀ (i : Nat) (s hn : String), ss.get? i = some s → hns.get? i = some hn →
        hn ≠ s ∧ ∃ r j, hn = draw r j := by
  intro ss
  induction ss with
  | nil => intro i0 hns _ i s hn hs _; cases hs
  | cons a ss ih =>
    intro i0 hns h i s hn hs hhn
    rw [hardNegatives] at h
    rcases hpick : pickHardNeg (draw i0) a fuel 0 with _ | x
    · rw [hpick] at h; cases h
    rw [hpick] at h
    rcases hrest : hardNegatives draw fuel (i0 + 1) ss with _ | rest
    · rw [hrest] at h; cases h
    rw [hrest] at h
    injection h with h
    subst h
    cases i with
    | zero =>
      injection hs with hs
      injection hhn with hhn
      rcases pickHardNeg_spec (draw i0) a fuel 0 x hpick with ⟨hne, j, hj⟩
      refine ⟨?_, i0, j, ?_⟩
      · rw [← hhn, ← hs]; exact hne
      · rw [← hhn]; exact hj
    | succ i =>
      simp only [List.get?_cons_succ] at hs hhn
      exact ih (i0 + 1) rest hrest i s hn hs hhn

/-- When `10 * q` is an integer, the one-decimal rounding leaves `q`
unchanged. -/
lemma round1_eq_self_of_mul_int (q : ℚ) (z : Int) (h : 10 * q = (z : ℚ)) :
    round1 q = q := by
  simp only [round1]
  rw [h, Int.floor_intCast]
  have hz : (z : ℚ) - z = 0 := by ring
  rw [hz, if_pos (by norm_num)]
  rw [← h]
  ring

/-- C5 counterexample: with `rand_proba = 1` the claimed substitution
probability `1 - rand_proba` is 0, i.e. no row would ever be substituted;
but the code substitutes whenever `round(uniform, 1) ≤ rand_proba`, which
with `rand_proba = 1` is every draw — here both rows are substituted and
flagged 0 (the substitution probability grows with `rand_proba` instead of
shrinking). -/
theorem C5_counterexample :
    (applyRandomPairs 1 ["A", "B"] ["tA", "tB"]
        [(9 / 10, 1), (2 / 10, 0)]).map Prod.snd = [0, 0] ∧
    ¬ ((applyRandomPairs 1 ["A", "B"] ["tA", "tB"]
        [(9 / 10, 1), (2 / 10, 0)]).map Prod.snd = [1, 1]) := by
  have h1 := round1_eq_self_of_mul_int (9 / 10) 9 (by norm_num)
  have h2 := round1_eq_self_of_mul_int (2 / 10) 2 (by norm_num)
  have hn1 : ¬((1 : ℚ) < round1 (9 / 10)) := by rw [h1]; norm_num
  have hn2 : ¬((1 : ℚ) < round1 (2 / 10)) := by rw [h2]; norm_num
  constructor
  · simp [applyRandomPairs, enumPair, hn1, hn2]
  · simp [applyRandomPairs, enumPair, hn1, hn2]

/-- C5 (amended): in the `random_pairs` loop each row draws one uniform
sample, rounds it to one decimal and compares it with `rand_proba`; the
row is substituted (pool draw, flag 0) precisely when the rounded draw is
`≤ rand_proba` — a probability that grows with `rand_proba`, roughly
`rand_proba` itself, not `1 - rand_proba` — and keeps its re-serialized
string with flag 1 precisely when the rounded draw is `> rand_proba`. -/
theorem C5_random_pairs_amended (rand_proba : ℚ) (smiles tr : List String)
    (draws : List (ℚ × Nat)) (i : Nat) (u : ℚ) (pick : Nat) (t : String)
    (hd : draws.get? i = some (u, pick)) (ht : tr.get? i = some t)
    (hpick : pick < smiles.length) :
    (round1 u ≤ rand_proba →
      (applyRandomPairs rand_proba smiles tr draws).get? i =
        some (smiles.getD pick "", 0) ∧
      smiles.getD pick "" ∈ smiles) ∧
    (rand_proba < round1 u →
      (applyRandomPairs rand_proba smiles tr draws).get? i = some (t, 1)) := by
  have hzip : (tr.zip draws).get? i = some (t, (u, pick)) :=
    get?_zip tr draws i t (u, pick) ht hd
  have hget : (applyRandomPairs rand_proba smiles tr draws).get? i =
      some (enumPair rand_proba smiles t (u, pick)) := by
    unfold applyRandomPairs
    rw [List.get?_map, hzip]
    rfl
  constructor
  · intro hle
    constructor
    · rw [hget]
      unfold enumPair
      rw [if_neg (by exact fun hlt => absurd hle (not_le.2 hlt))]
    · exact getD_mem smiles pick "" hpick
  · intro hlt
    rw [hget]
    unfold enumPair
    rw [if_pos hlt]

/-- Witness for C5 (amended) at `rand_proba = 1/2`: the row with rounded
draw `0.2 ≤ 0.5` is substituted by pool element 0 with flag 0, and the row
with rounded draw `0.9 > 0.5` keeps its string with flag 1. -/
theorem C5_random_pairs_amended_witness :
    ((applyRandomPairs (1 / 2) ["A", "B"] ["tA", "tB"]
        [(2 / 10, 0), (9 / 10, 1)]).get? 0 = some ("A", 0) ∧
      "A" ∈ ["A", "B"]) ∧
    (applyRandomPairs (1 / 2) ["A", "B"] ["tA", "tB"]
        [(2 / 10, 0), (9 / 10, 1)]).get? 1 = some ("tB", 1) :=
  ⟨(C5_random_pairs_amended (1 / 2) ["A", "B"] ["tA", "tB"]
      [(2 / 10, 0), (9 / 10, 1)] 0 (2 / 10) 0 "tA" rfl rfl (by decide)).1
      (by rw [round1_eq_self_of_mul_int (2 / 10) 2 (by norm_num)]; norm_num),
   (C5_random_pairs_amended (1 / 2) ["A", "B"] ["tA", "tB"]
      [(2 / 10, 0), (9 / 10, 1)] 1 (9 / 10) 1 "tB" rfl rfl (by decide)).2
      (by rw [round1_eq_self_of_mul_int (9 / 10) 9 (by norm_num)]; norm_num)⟩

/-- C7: whenever the hard-negative loop finishes for every row, each
produced `hard_neg` differs from that row's own original `sent1` and is an
element of the replicated pool. -/
theorem C7_hard_neg_distinct (draw : Nat → Nat → String) (fuel : Nat)
    (smiles hns : List String)
    (hpool : ∀ i j, draw i j ∈ smiles)
    (h : hardNegatives draw fuel 0 smiles = some hns) :
    ∀ (i : Nat) (s hn : String), smiles.get? i = some s → hns.get? i = some hn →
      hn ≠ s ∧ hn ∈ smiles := by
  intro i s hn hs hhn
  rcases hardNegatives_spec draw fuel smiles 0 hns h i s hn hs hhn with
    ⟨hne, r, j, hj⟩
  exact ⟨hne, hj ▸ hpool r j⟩

/-- Witness for C7 on the pool `["C", "O"]` with a draw stream giving the
other element for each row. -/
theorem C7_hard_neg_distinct_witness :
    ("O" ≠ "C" ∧ "O" ∈ ["C", "O"]) ∧ ("C" ≠ "O" ∧ "C" ∈ ["C", "O"]) :=
  ⟨C7_hard_neg_distinct (fun i _ => if i = 0 then "O" else "C") 1
      ["C", "O"] ["O", "C"]
      (by intro i j; by_cases h : i = 0 <;> simp [h])
      (by decide) 0 "C" "O" rfl rfl,
   C7_hard_neg_distinct (fun i _ => if i = 0 then "O" else "C") 1
      ["C", "O"] ["O", "C"]
      (by intro i j; by_cases h : i = 0 <;> simp [h])
      (by decide) 1 "O" "C" rfl rfl⟩

/-- C10: the resample loop of `enumerate_smiles_hard_neg` can return only
if the pool contains a string different from the row's original (whatever
value it returns witnesses that); and when the source column holds a
single distinct string — so the `np.repeat` pool is all copies of it, for
any replication count — every draw equals the original and the loop runs
forever (returns within no finite fuel). -/
theorem C10_hard_neg_termination (draw : Nat → String) (pool : List String)
    (smile : String) :
    ((∀ j, draw j ∈ pool) →
      ∀ (fuel k : Nat) (hn : String), pickHardNeg draw smile fuel k = some hn →
        ∃ x ∈ pool, x ≠ smile) ∧
    (∀ (c rep : Nat), (∀ j, draw j ∈ npRepeat (List.replicate c smile) rep) →
      ∀ (fuel k : Nat), pickHardNeg draw smile fuel k = none) := by
  constructor
  · intro hpool fuel k hn h
    rcases pickHardNeg_spec draw smile fuel k hn h with ⟨hne, j, hj⟩
    exact ⟨hn, hj ▸ hpool j, hne⟩
  · intro c rep hpool
    apply pickHardNeg_none_of_all_eq
    intro j
    have hmem := hpool j
    unfold npRepeat at hmem
    rcases List.mem_flatten.1 hmem with ⟨l, hl, hx⟩
    rcases List.mem_map.1 hl with ⟨y, hy, rfl⟩
    have hys : y = smile := List.eq_of_mem_replicate hy
    have := List.eq_of_mem_replicate hx
    rw [this, hys]

/-- Witness for C10: a draw stream inside the pool `["C", "O"]` that
terminates and witnesses a distinct element, and the all-identical pool
`np.repeat(["C", "C"], 3)` on which the loop returns nothing for fuel 5. -/
theorem C10_hard_neg_termination_witness :
    (∃ x ∈ ["C", "O"], x ≠ "O") ∧
    pickHardNeg (fun _ => "C") "C" 5 0 = none :=
  ⟨(C10_hard_neg_termination (fun _ => "C") ["C", "O"] "O").1
      (fun _ => List.mem_cons_self "C" ["O"]) 1 0 "C" (by decide),
   (C10_hard_neg_termination (fun _ => "C") ["C", "O"] "C").2 2 3
      (fun _ => by decide) 5 0⟩

end EnumAug
